import Mathlib

/-!
Verification of the utterance normalization and dynamic-grammar parsing
pipeline of the Think-Aloud-RL repository, as implemented in
cltl-knowledgeextraction/src/cltl/triple_extraction/api.py.

Python strings are modelled as Lean String (a structure holding a List Char),
Python lists as Lean lists, Python float confidences as rationals, and code
that can raise an exception is modelled in the Except monad.  External
collaborators (the two part-of-speech taggers, the NLTK grammar compiler and
the recursive-descent parser) are parameters of the definitions.  String
scanning loops are given explicit fuel equal to the length of the scanned
string; every step of the Python loop consumes at least one character, so
this fuel is always sufficient and the wrappers supply it.
-/

/-! ## Python string primitives -/

/-- The single quote character, written by code point to keep rule strings
readable in this file. -/
def quoteS : String := ⟨[Char.ofNat 39]⟩

/-- Python str.startswith. -/
def startsW (s p : String) : Bool := decide (p.data <+: s.data)

/-- Python substring containment, the operator `in` on strings. -/
def pyIn (pat s : String) : Bool := decide (pat.data <:+: s.data)

/-- Remove `pat` from the front of `s` if it is a prefix, returning the rest. -/
def tryStrip : List Char → List Char → Option (List Char)
  | [], s => some s
  | _ :: _, [] => none
  | p :: ps, c :: cs => if p = c then tryStrip ps cs else none

/-- One left-to-right pass replacing every non-overlapping occurrence of
`pat` by `rep`, the semantics of Python str.replace.  The fuel argument
bounds the scan; the wrapper passes the length of the string. -/
def replaceFuel (pat rep : List Char) : Nat → List Char → List Char
  | 0, s => s
  | _ + 1, [] => []
  | f + 1, c :: rest =>
    match pat, tryStrip pat (c :: rest) with
    | _ :: _, some s2 => rep ++ replaceFuel pat rep f s2
    | _, _ => c :: replaceFuel pat rep f rest

/-- Python str.replace (all occurrences, left to right, non-overlapping). -/
def pyReplace (s pat rep : String) : String :=
  ⟨replaceFuel pat.data rep.data s.data.length s.data⟩

/-- Whitespace splitting with fuel, the semantics of Python str.split()
with no argument: runs of whitespace separate words, no empty words. -/
def wordsFuel : Nat → List Char → List (List Char)
  | 0, _ => []
  | _ + 1, [] => []
  | f + 1, c :: rest =>
    if c.isWhitespace then wordsFuel f rest
    else
      ((c :: rest).takeWhile (fun x => !x.isWhitespace)) ::
        wordsFuel f ((c :: rest).dropWhile (fun x => !x.isWhitespace))

/-- Python str.split() with no argument. -/
def pyWords (s : String) : List String :=
  (wordsFuel s.data.length s.data).map String.mk

/-- Python str.lower for the ASCII phrases used by the pipeline. -/
def pyLower (s : String) : String := ⟨s.data.map Char.toLower⟩

/-- Python " ".join. -/
def joinSp : List String → String
  | [] => ""
  | [w] => w
  | w :: ws => w ++ " " ++ joinSp ws

/-- Python str.strip with no argument: drop whitespace from both ends. -/
def pyStrip (s : String) : String :=
  ⟨(((s.data.dropWhile Char.isWhitespace).reverse.dropWhile Char.isWhitespace).reverse)⟩

/-- Drop the final character, Python slicing [:-1] (empty stays empty). -/
def dropLastS (s : String) : String := ⟨s.data.dropLast⟩

/-- Split a character list into its lines, the line structure of the grammar
text: a final newline terminates the last line, as in Python splitlines. -/
def linesOf : List Char → List (List Char)
  | [] => []
  | c :: rest =>
    if c = '\n' then [] :: linesOf rest
    else
      match linesOf rest with
      | [] => [[c]]
      | l :: ls => (c :: l) :: ls

/-! ## Token normalization (Utterance._tokenize and helpers),
api.py lines 431 to 509 -/

/-- Opener phrases removed from the beginning of a transcript
(api.py line 447). -/
def openers : List String := ["Leolani", "Sorry", "Excuse me", "Hey", "Hello", "Hi"]

/-- Introduction phrases removed from the beginning of a transcript
(api.py line 448). -/
def introductions : List String :=
  ["Can you tell me", "Do you know", "Please tell me", "Do you maybe know"]

/-- Question words that must follow an introduction phrase for it to be
stripped (api.py lines 460 and 465). -/
def qwords : List String := ["what", "that", "who", "when", "where", "which"]

/-- One iteration of the opener loop of _tokenize (api.py lines 450 to 454):
if the transcript starts with the opener, replace ALL its occurrences by the
empty string; then the same with the lowercased opener. -/
def openerStep (tr o : String) : String :=
  let tr2 := if startsW tr o then pyReplace tr o "" else tr
  if startsW tr2 (pyLower o) then pyReplace tr2 (pyLower o) "" else tr2

/-- The opener loop of _tokenize over all opener phrases. -/
def stripOpeners (t : String) : String :=
  openers.foldl openerStep t

/-- One iteration of the introduction loop of _tokenize (api.py lines 456 to
466).  Indexing the split of an empty remainder raises IndexError, modelled
as the error case. -/
def introStep (tr i : String) : Except Unit String :=
  let branch1 : Except Unit String :=
    if startsW tr i then
      match pyWords (pyReplace tr i "") with
      | [] => Except.error ()
      | fw :: _ => Except.ok (if fw ∈ qwords then pyReplace tr i "" else tr)
    else Except.ok tr
  match branch1 with
  | Except.error e => Except.error e
  | Except.ok tr2 =>
    if startsW tr2 (pyLower i) then
      match pyWords (pyReplace tr2 (pyLower i) "") with
      | [] => Except.error ()
      | fw :: _ =>
        Except.ok (if pyLower fw ∈ qwords then pyReplace tr2 (pyLower i) "" else tr2)
    else Except.ok tr2

/-- The introduction loop over all introduction phrases. -/
def introFold : List String → String → Except Unit String
  | [], tr => Except.ok tr
  | i :: rest, tr =>
    match introStep tr i with
    | Except.error e => Except.error e
    | Except.ok tr2 => introFold rest tr2

/-- Utterance.replace_token (api.py lines 497 to 509): replace the first
occurrence of `old` by `new`, leaving the list unchanged when `old` is
absent.  In Python this is index, remove and insert at the same position,
which acts on the first occurrence only. -/
def replace_token (tokens : List String) (old new : String) : List String :=
  match tokens with
  | [] => []
  | t :: ts => if t = old then new :: ts else t :: replace_token ts old new

/-- The contraction map of _tokenize (api.py line 470), in insertion order. -/
def dict : List (String × String) := [("m", "am"), ("re", "are"), ("ll", "will")]

/-- The negated-auxiliary map of _tokenize (api.py lines 471 to 472). -/
def dict_not : List (String × String) :=
  [("won", "will"), ("don", "do"), ("doesn", "does"), ("didn", "did"),
   ("haven", "have"), ("wouldn", "would"), ("aren", "are")]

/-- Python list.index restricted to a present element: position of the first
occurrence. -/
def pyIndexOf : List String → String → Nat
  | [], _ => 0
  | t :: ts, x => if t = x then 0 else pyIndexOf ts x + 1

/-- Python list.remove: drop the first occurrence. -/
def pyRemove : List String → String → List String
  | [], _ => []
  | t :: ts, x => if t = x then ts else t :: pyRemove ts x

/-- Python list.insert at a position (appends when the position is past the
end). -/
def pyInsert : Nat → String → List String → List String
  | 0, x, l => x :: l
  | _ + 1, x, [] => [x]
  | n + 1, x, y :: l => y :: pyInsert n x l

/-- The possessive-s step of _tokenize (api.py lines 483 to 493): look up
the tag of the token after the first bare s; on determiner, adjective,
preposition or verb tags insert "is" in its place, otherwise (and on any
lookup failure, including a missing next token) just remove it. -/
def s_step (posTag : String → String) (tokens : List String) : List String :=
  if "s" ∈ tokens then
    let index := pyIndexOf tokens "s"
    match tokens.get? (index + 1) with
    | some next =>
      let tag := posTag next
      if tag ∈ ["DT", "JJ", "IN"] || startsW tag "V"
      then pyInsert index "is" (pyRemove tokens "s")
      else pyRemove tokens "s"
    | none => pyRemove tokens "s"
  else tokens

/-- The contraction block of _tokenize (api.py lines 469 to 481): apply the
contraction map, and when a bare t is present replace it by "not" and apply
the negated-auxiliary map. -/
def expandTokens (tokens0 : List String) : List String :=
  let t1 := dict.foldl (fun ts kv => replace_token ts kv.1 kv.2) tokens0
  if "t" ∈ t1 then
    dict_not.foldl (fun ts kv => replace_token ts kv.1 kv.2) (replace_token t1 "t" "not")
  else t1

/-- Utterance._tokenize (api.py lines 431 to 495): strip openers and
introductions, split the transcript on apostrophes-made-spaces, expand
contractions, resolve a bare s.  The introduction loop can raise IndexError,
hence the Except result. -/
def _tokenize (posTag : String → String) (transcript : String) :
    Except Unit (List String) :=
  match introFold introductions (stripOpeners transcript) with
  | Except.error e => Except.error e
  | Except.ok t =>
    Except.ok (s_step posTag (expandTokens (pyWords (pyReplace t quoteS " "))))

/-! ## Hypothesis selection (UtteranceHypothesis, Utterance._choose_hypothesis,
Utterance._patch_names, Utterance._get_closest_name), api.py lines 30 to 429 -/

/-- An ASR hypothesis: transcript and confidence (api.py lines 30 to 83). -/
structure Hyp where
  transcript : String
  confidence : Rat
deriving DecidableEq

/-- Levenshtein edit distance with fuel (nltk edit_distance with default
arguments); the wrapper passes the sum of the lengths, which bounds the
recursion depth. -/
def edFuel : Nat → List Char → List Char → Nat
  | 0, a, b => a.length + b.length
  | _ + 1, [], b => b.length
  | _ + 1, a, [] => a.length
  | f + 1, x :: xs, y :: ys =>
    if x = y then edFuel f xs ys
    else 1 + min (edFuel f xs (y :: ys)) (min (edFuel f (x :: xs) ys) (edFuel f xs ys))

/-- nltk edit_distance. -/
def editDistance (a b : String) : Nat := edFuel (a.data.length + b.data.length) a.data b.data

/-- Utterance._get_closest_name (api.py lines 422 to 429): for a word with
an uppercase first letter and a non-empty name list, the name at minimum
edit distance (first in list order on ties, as the Python stable sort
returns), accepted when the distance is at most 2. -/
def _get_closest_name (word : String) (names : List String) : Option String :=
  match word.data with
  | [] => none
  | c :: _ =>
    if c.isUpper ∧ names ≠ [] then
      match names.map (fun n => (n, editDistance n word)) with
      | [] => none
      | p :: ps =>
        let best := ps.foldl (fun b q => if q.2 < b.2 then q else b) p
        if best.2 ≤ 2 then some best.1 else none
    else none

/-- The per-hypothesis word patching loop of _patch_names (api.py lines 395
to 408): returns the patched word list and the matched names in order. -/
def patchWords (friends : List String) (ws : List String) : List String × List String :=
  ws.foldl
    (fun acc w =>
      match _get_closest_name w friends with
      | some n => (acc.1 ++ [n], acc.2 ++ [n])
      | none => (acc.1 ++ [w], acc.2))
    ([], [])

/-- Counter key order: first occurrence order of the matched names. -/
def dedupKeys (l : List String) : List String :=
  l.foldl (fun acc x => if x ∈ acc then acc else acc ++ [x]) []

/-- Utterance._patch_names (api.py lines 390 to 420): patch each transcript
word by its closest name, then when any names matched, multiply the
confidence of every hypothesis whose patched transcript contains a matched
name by the frequency of that name over the maximal frequency. -/
def _patch_names (friends : List String) (hyps : List Hyp) : List Hyp :=
  let patched := hyps.map (fun h =>
    let pw := patchWords friends (pyWords h.transcript)
    ({ transcript := joinSp pw.1, confidence := h.confidence }, pw.2))
  let hyps2 := patched.map Prod.fst
  let names : List String := (patched.map Prod.snd).flatten
  if names.isEmpty then hyps2
  else
    let keys := dedupKeys names
    let maxFreq : Nat := (keys.map (fun n => names.count n)).foldl max 0
    hyps2.map (fun h =>
      { transcript := h.transcript,
        confidence := keys.foldl
          (fun c n =>
            if pyIn n h.transcript then c * ((names.count n : Rat) / (maxFreq : Rat)) else c)
          h.confidence })

/-- Stable insertion into a descending-by-confidence list: the insertion
used to model Python sorted with reverse=True, which keeps the original
order of elements with equal keys. -/
def pyInsertDesc (x : Hyp) : List Hyp → List Hyp
  | [] => [x]
  | y :: ys => if y.confidence ≤ x.confidence then x :: y :: ys else y :: pyInsertDesc x ys

/-- Python sorted(key=confidence, reverse=True): a stable descending sort. -/
def sortedDesc : List Hyp → List Hyp
  | [] => []
  | x :: xs => pyInsertDesc x (sortedDesc xs)

/-- Utterance._choose_hypothesis (api.py lines 387 to 388): patch names,
sort by confidence descending (stable) and take the first element; indexing
an empty list raises, modelled as none. -/
def _choose_hypothesis (friends : List String) (hyps : List Hyp) : Option Hyp :=
  match sortedDesc (_patch_names friends hyps) with
  | [] => none
  | h :: _ => some h

/-! ## Parse trees and constituent extraction (Parser._parse, api.py
lines 605 to 647) -/

/-- An nltk tree: an inner node with a label and children, or a leaf
holding a token string. -/
inductive PTree where
  | leaf (s : String)
  | node (label : String) (children : List PTree)

/-- Python iteration over a tree object: a Tree yields its children; a
string yields its characters (as one-character strings). -/
def pyIter : PTree → List PTree
  | .node _ cs => cs
  | .leaf s => s.data.map (fun c => PTree.leaf ⟨[c]⟩)

/-- Immediate children of a tree node (empty for a leaf). -/
def childrenOf : PTree → List PTree
  | .node _ cs => cs
  | .leaf _ => []

/-- Whether a value is a Tree rather than a string leaf. -/
def isNodeB : PTree → Bool
  | .node _ _ => true
  | .leaf _ => false

/-- The label of a node (the empty string for a leaf, unused there). -/
def labelOf : PTree → String
  | .node l _ => l
  | .leaf _ => ""

mutual
/-- nltk Tree.leaves: all leaf strings, left to right. -/
def leavesOf : PTree → List String
  | .leaf s => [s]
  | .node _ cs => leavesList cs
/-- Leaves of a list of trees, in order. -/
def leavesList : List PTree → List String
  | [] => []
  | t :: ts => leavesOf t ++ leavesList ts
end

/-- Calling .label() on a value: AttributeError on a string. -/
def labelE : PTree → Except Unit String
  | .node l cs => Except.ok (labelOf (.node l cs))
  | .leaf _ => Except.error ()

/-- Calling .leaves() on a value: AttributeError on a string. -/
def leavesE : PTree → Except Unit (List String)
  | .node l cs => Except.ok (leavesOf (.node l cs))
  | .leaf _ => Except.error ()

/-- Effectful map over a list in the Except monad, the shape of the Python
for loops that can raise. -/
def mapME {α β : Type} (f : α → Except Unit β) : List α → Except Unit (List β)
  | [] => Except.ok []
  | x :: xs =>
    match f x with
    | Except.error e => Except.error e
    | Except.ok y =>
      match mapME f xs with
      | Except.error e => Except.error e
      | Except.ok ys => Except.ok (y :: ys)

/-- One constituent entry of the syntactic realizations dictionary. -/
structure SR where
  label : String
  struct : PTree
  raw : String

/-- The raw string loop (api.py lines 627 to 632): concatenate every leaf of
every child of the branch followed by a hyphen. -/
def hyphenConcat (leaves : List String) : List Char :=
  leaves.foldl (fun acc s => acc ++ s.data ++ ['-']) []

/-- The raw value of a branch: leaves of its children joined with hyphens,
final hyphen dropped by the [:-1] slice; children that are strings raise. -/
def rawOfBranch (b : PTree) : Except Unit String :=
  match mapME leavesE (pyIter b) with
  | Except.error e => Except.error e
  | Except.ok parts => Except.ok ⟨(hyphenConcat parts.flatten).dropLast⟩

/-- One entry of s_r (api.py lines 626 to 632 and the strip at line 643):
label, the branch itself, and the stripped raw string. -/
def entryOfBranch (b : PTree) : Except Unit SR :=
  match labelE b with
  | Except.error e => Except.error e
  | Except.ok l =>
    match rawOfBranch b with
    | Except.error e => Except.error e
    | Except.ok raw => Except.ok ⟨l, b, pyStrip raw⟩

/-- The constituent extraction of _parse (api.py lines 616 to 643): for each
child of the first tree of the forest, for each of its own children
(a branch), record an entry; an empty forest yields no entries. -/
def extractTry (forest : List PTree) : Except Unit (List SR) :=
  match forest with
  | [] => Except.ok []
  | first :: _ =>
    match mapME (fun t => mapME entryOfBranch (pyIter t)) (pyIter first) with
    | Except.error e => Except.error e
    | Except.ok groups => Except.ok groups.flatten

/-! ## Dynamic grammar construction (Parser.__init__ and the rule loop of
Parser._parse), api.py lines 531 to 603 -/

/-- The word as used in a terminal rule (api.py lines 593 to 594): when the
word contains a question mark anywhere, its LAST character is dropped. -/
def ruleWord (w : String) : String :=
  if pyIn "?" w then dropLastS w else w

/-- The terminal production rule built for a (word, tag) pair (api.py lines
595 to 600): possessive tags lose their final dollar sign and gain the POS
suffix. -/
def mkRule (word tag : String) : String :=
  let w := ruleWord word
  if tag.data.getLast? = some '$' then
    dropLastS tag ++ "POS -> " ++ quoteS ++ w ++ quoteS ++ "\n"
  else
    tag ++ " -> " ++ quoteS ++ w ++ quoteS ++ "\n"

/-- The rule loop of _parse (api.py lines 591 to 603): append each rule to
the instance grammar text when an identical rule string is not already a
substring of it. -/
def addRules (cfg : String) (pos : List (String × String)) : String :=
  pos.foldl
    (fun c wt =>
      let r := mkRule wt.1 wt.2
      if pyIn r c then c else c ++ r)
    cfg

/-- Parser.__init__ grammar handling (api.py lines 548 to 552): the class
attribute Parser.GRAMMAR is set from the grammar file only when it is still
falsy (None or empty); the instance attribute _cfg is then a copy of the
class attribute.  Returns the new class attribute and the instance text. -/
def parserInit (base : String) (g : Option String) : Option String × String :=
  match g with
  | none => (some base, base)
  | some s => if s = "" then (some base, base) else (some s, s)

/-- One utterance through the grammar pipeline: initialize the parser from
the process state, then extend the instance grammar with the terminal rules
of this utterance.  Returns the new process state and the grammar text used
to parse this utterance. -/
def runUtterance (base : String) (g : Option String) (pos : List (String × String)) :
    Option String × String :=
  let init := parserInit base g
  (init.1, addRules init.2 pos)

/-! ## The parse attempt (Parser._parse try block), api.py lines 605 to 647 -/

/-- The question-mark stripping of the final token before parsing (api.py
lines 609 to 612): indexing tokens[len - 1] of an empty list raises
IndexError; when the last token contains a question mark anywhere, its last
character is dropped. -/
def stripLastQ (tokens : List String) : Except Unit (List String) :=
  match tokens.getLast? with
  | none => Except.error ()
  | some last =>
    Except.ok (if pyIn "?" last then tokens.dropLast ++ [dropLastS last] else tokens)

/-- The try block of _parse (api.py lines 605 to 645): compile the grammar,
strip the final question mark, run the recursive-descent parser, extract
constituents.  The grammar compiler and the parser are external (nltk) and
are passed as fallible functions. -/
def parseAttempt {G : Type} (compile : String → Except Unit G)
    (parse : G → List String → Except Unit (List PTree))
    (cfg : String) (tokens : List String) :
    Except Unit (List PTree × List SR) :=
  match compile cfg with
  | Except.error e => Except.error e
  | Except.ok g =>
    match stripLastQ tokens with
    | Except.error e => Except.error e
    | Except.ok tokens2 =>
      match parse g tokens2 with
      | Except.error e => Except.error e
      | Except.ok forest =>
        match extractTry forest with
        | Except.error e => Except.error e
        | Except.ok srs => Except.ok (forest, srs)

/-- Parser._parse with its except clause (api.py lines 646 to 647): any
failure inside the try block becomes an empty forest and an empty
constituent map. -/
def _parse {G : Type} (compile : String → Except Unit G)
    (parse : G → List String → Except Unit (List PTree))
    (cfg : String) (tokens : List String) : List PTree × List SR :=
  match parseAttempt compile parse cfg tokens with
  | Except.ok r => r
  | Except.error _ => ([], [])

/-! ## Chat bookkeeping (Chat.add_utterance, api.py lines 155 to 174,
and the turn argument of Utterance.__init__, line 168) -/

/-- The per-utterance record kept by a chat: the turn index passed to
Utterance.__init__ is the number of utterances already stored. -/
structure UttRec where
  turn : Nat
  hyps : List Hyp
deriving DecidableEq

/-- Chat.add_utterance: construct the utterance with turn equal to the
current length of the list, then append it. -/
def add_utterance (utts : List UttRec) (hs : List Hyp) : List UttRec :=
  utts ++ [⟨utts.length, hs⟩]

/-- A whole chat: fold add_utterance over the successive hypothesis lists,
starting from the empty utterance list of Chat.__init__. -/
def runChat (adds : List (List Hyp)) : List UttRec :=
  adds.foldl add_utterance []

/-! ## General helper lemmas -/

/-- Appending strings appends their character lists. -/
theorem strApp_data (a b : String) : (a ++ b).data = a.data ++ b.data := rfl

/-- The character list of the literal question mark string. -/
theorem qmark_data : ("?" : String).data = ['?'] := rfl

/-- A string is its own character list. -/
theorem strEta (s : String) : (⟨s.data⟩ : String) = s := rfl

/-- pyIn is monotone under appending on the right. -/
theorem pyIn_append (pat c : String) (ext : List Char)
    (h : pyIn pat c = true) : pyIn pat ⟨c.data ++ ext⟩ = true := by
  simp only [pyIn, decide_eq_true_eq] at h ⊢
  exact h.trans (List.prefix_append c.data ext).isInfix

/-- addRules only ever appends text to the instance grammar. -/
theorem addRules_extends :
    ∀ (pos : List (String × String)) (cfg : String),
      ∃ ext : List Char, (addRules cfg pos).data = cfg.data ++ ext := by
  intro pos
  induction pos with
  | nil => exact fun cfg => ⟨[], by simp [addRules]⟩
  | cons p rest ih =>
    intro cfg
    have hstep : addRules cfg (p :: rest) =
        addRules (if pyIn (mkRule p.1 p.2) cfg then cfg else cfg ++ mkRule p.1 p.2) rest := rfl
    by_cases hin : pyIn (mkRule p.1 p.2) cfg = true
    · rw [hstep, if_pos hin]; exact ih cfg
    · rw [hstep, if_neg hin]
      obtain ⟨ext, hext⟩ := ih (cfg ++ mkRule p.1 p.2)
      exact ⟨(mkRule p.1 p.2).data ++ ext, by rw [hext, strApp_data, List.append_assoc]⟩

/-- A rule is still a substring after further rules are processed. -/
theorem pyIn_addRules (pat cfg : String) (pos : List (String × String))
    (h : pyIn pat cfg = true) : pyIn pat (addRules cfg pos) = true := by
  obtain ⟨ext, hext⟩ := addRules_extends pos cfg
  have := pyIn_append pat cfg ext h
  rwa [show (⟨cfg.data ++ ext⟩ : String) = addRules cfg pos from by rw [← hext]] at this

/-! ## Claim C2 -/

/-- Claim C2: for every token sequence and grammar text, a failure of the
grammar compiler, or a failure of the parse attempt on the stripped token
sequence, makes the parse step return an empty forest and an empty
constituent map; no exception escapes (the model of _parse is total). -/
theorem c2_parse_failure_empty (G : Type) (compile : String → Except Unit G)
    (parse : G → List String → Except Unit (List PTree))
    (cfg : String) (tokens : List String) :
    (compile cfg = Except.error () →
      _parse compile parse cfg tokens = ([], [])) ∧
    (∀ (g : G) (tokens2 : List String),
      compile cfg = Except.ok g → stripLastQ tokens = Except.ok tokens2 →
      parse g tokens2 = Except.error () →
      _parse compile parse cfg tokens = ([], [])) := by
  constructor
  · intro h
    simp [_parse, parseAttempt, h]
  · intro g t2 h1 h2 h3
    simp [_parse, parseAttempt, h1, h2, h3]

/-- Witness for C2 at concrete failing collaborators. -/
theorem c2_witness :
    _parse (G := Unit) (fun _ => Except.error ()) (fun _ _ => Except.error ())
      "NP" ["dogs"] = ([], []) :=
  (c2_parse_failure_empty Unit (fun _ => Except.error ()) (fun _ _ => Except.error ())
    "NP" ["dogs"]).1 rfl

/-! ## Claim C3 -/

/-- Claim C3 (code bug): token normalization is not total.  On the
transcript "Can you tell me" (exactly an introduction phrase), _tokenize
indexes the first word of an empty remainder and raises IndexError,
regardless of the tagger.  This contradicts the stated propagation policy
that every per-utterance step is total. -/
theorem c3_tokenize_raises (posTag : String → String) :
    _tokenize posTag "Can you tell me" = Except.error () := rfl

/-! ## Claim C7 -/

/-- Counterexample to claim C7: the word "a?b" does not end with a question
mark, yet the rule-word transformation changes it (it drops the final b,
because the code tests containment of the question mark anywhere and then
always drops the LAST character); the same happens to the last token handed
to the parser. -/
theorem c7_counterexample :
    ("a?b" : String).data.getLast? ≠ some '?' ∧
    ruleWord "a?b" = "a?" ∧
    ruleWord "a?b" ≠ "a?b" ∧
    stripLastQ ["x", "a?b"] = Except.ok ["x", "a?"] :=
  ⟨by decide, by decide, by decide, rfl⟩

/-- Claim C7 as amended: when a word contains a question mark anywhere its
final character is dropped, both for the grammar-rule word and for the last
token handed to the parser; hence a word whose final character is the
question mark has exactly that mark stripped, and a word containing no
question mark at all is left unchanged. -/
theorem c7_amended_question :
    (∀ v : String, ruleWord (v ++ "?") = v) ∧
    (∀ w : String, pyIn "?" w = false → ruleWord w = w) ∧
    (∀ (ts : List String) (v : String),
      stripLastQ (ts ++ [v ++ "?"]) = Except.ok (ts ++ [v])) ∧
    (∀ (ts : List String) (w : String), pyIn "?" w = false →
      stripLastQ (ts ++ [w]) = Except.ok (ts ++ [w])) := by
  have hq : ∀ v : String, pyIn "?" (v ++ "?") = true := by
    intro v
    simp only [pyIn, decide_eq_true_eq, strApp_data, qmark_data]
    exact ⟨v.data, [], by simp⟩
  have hdrop : ∀ v : String, dropLastS (v ++ "?") = v := by
    intro v
    simp only [dropLastS, strApp_data, qmark_data, List.dropLast_concat]
  refine ⟨?_, ?_, ?_, ?_⟩
  · intro v
    simp only [ruleWord, hq v, if_true]
    exact hdrop v
  · intro w h
    simp [ruleWord, h]
  · intro ts v
    simp only [stripLastQ, List.getLast?_concat, hq v, if_true, List.dropLast_concat]
    rw [hdrop v]
  · intro ts w h
    simp [stripLastQ, List.getLast?_concat, h]

/-- Witness for C7 at concrete inputs. -/
theorem c7_witness :
    ruleWord ("dogs" ++ "?") = "dogs" ∧ ruleWord "cat" = "cat" ∧
    stripLastQ (["big"] ++ ["cat"]) = Except.ok (["big"] ++ ["cat"]) :=
  ⟨c7_amended_question.1 "dogs", c7_amended_question.2.1 "cat" (by decide),
    c7_amended_question.2.2.2 ["big"] "cat" (by decide)⟩

/-! ## Claim C9 -/

/-- Counterexample to claim C9: turns are counted from zero, not from one.
The first utterance added to a fresh chat receives turn index 0. -/
theorem c9_counterexample :
    (runChat [[⟨"hi", 1⟩]]).map UttRec.turn = [0] ∧ (0 : Nat) ≠ 1 :=
  ⟨rfl, by decide⟩

/-- The chat fold only ever appends records. -/
theorem chat_foldl_extends :
    ∀ (adds : List (List Hyp)) (utts : List UttRec),
      ∃ ext : List UttRec, adds.foldl add_utterance utts = utts ++ ext := by
  intro adds
  induction adds with
  | nil => exact fun utts => ⟨[], by simp⟩
  | cons a rest ih =>
    intro utts
    obtain ⟨ext, hext⟩ := ih (add_utterance utts a)
    refine ⟨⟨utts.length, a⟩ :: ext, ?_⟩
    simp only [List.foldl_cons, add_utterance] at hext ⊢
    rw [hext, List.append_assoc]
    rfl

/-- The turn of every stored utterance equals its position, for any
starting list satisfying the same invariant. -/
theorem chat_foldl_turns :
    ∀ (adds : List (List Hyp)) (utts : List UttRec),
      (∀ i (h : i < utts.length), (utts.get ⟨i, h⟩).turn = i) →
      ∀ i (h : i < (adds.foldl add_utterance utts).length),
        ((adds.foldl add_utterance utts).get ⟨i, h⟩).turn = i := by
  intro adds
  induction adds with
  | nil => exact fun utts h => h
  | cons a rest ih =>
    intro utts hinv
    apply ih
    intro i h
    simp only [add_utterance] at h ⊢
    rcases Nat.lt_or_ge i utts.length with hlt | hge
    · rw [List.get_eq_getElem, List.getElem_append_left hlt]
      exact hinv i hlt
    · have hlen : i = utts.length := by
        simp only [List.length_append, List.length_singleton] at h
        omega
      subst hlen
      simp

/-- Claim C9 as amended: utterances are indexed by insertion order with
turns counted from ZERO (the first utterance of a chat has turn 0), the
i-th stored utterance has turn i, and utterances are never removed (every
later chat state extends the earlier one). -/
theorem c9_amended_turns (adds : List (List Hyp)) :
    (∀ i (h : i < (runChat adds).length), ((runChat adds).get ⟨i, h⟩).turn = i) ∧
    (∀ more : List (List Hyp), ∃ ext : List UttRec,
      runChat (adds ++ more) = runChat adds ++ ext) := by
  constructor
  · exact chat_foldl_turns adds [] (fun i h => absurd h (by simp))
  · intro more
    obtain ⟨ext, hext⟩ := chat_foldl_extends more (runChat adds)
    exact ⟨ext, by simp only [runChat, List.foldl_append]; exact hext⟩

/-- Witness for C9 at a concrete two-utterance chat. -/
theorem c9_witness :
    ((runChat [[⟨"a", 1⟩], [⟨"b", 2⟩]]).get ⟨1, by decide⟩).turn = 1 :=
  (c9_amended_turns [[⟨"a", 1⟩], [⟨"b", 2⟩]]).1 1 (by decide)

/-! ## Claim C10 -/

/-- Python list.index finds the first occurrence. -/
theorem pyIndexOf_append (x : String) :
    ∀ (pre suf : List String), x ∉ pre → pyIndexOf (pre ++ x :: suf) x = pre.length := by
  intro pre
  induction pre with
  | nil => intro suf _; simp [pyIndexOf]
  | cons p ps ih =>
    intro suf h
    have hne : ¬ (p = x) := fun hc => h (by simp [hc])
    have hx : x ∉ ps := fun hc => h (List.mem_cons_of_mem _ hc)
    simp [pyIndexOf, hne, ih suf hx]

/-- Python list.remove removes the first occurrence. -/
theorem pyRemove_append (x : String) :
    ∀ (pre suf : List String), x ∉ pre → pyRemove (pre ++ x :: suf) x = pre ++ suf := by
  intro pre
  induction pre with
  | nil => intro suf _; simp [pyRemove]
  | cons p ps ih =>
    intro suf h
    have hne : ¬ (p = x) := fun hc => h (by simp [hc])
    have hx : x ∉ ps := fun hc => h (List.mem_cons_of_mem _ hc)
    simp [pyRemove, hne, ih suf hx]

/-- Python list.insert at the length of a prefix puts the element between
the prefix and the rest. -/
theorem pyInsert_append (x : String) :
    ∀ (pre l : List String), pyInsert pre.length x (pre ++ l) = pre ++ x :: l := by
  intro pre
  induction pre with
  | nil => intro l; rfl
  | cons p ps ih => intro l; simp [pyInsert, ih l]

/-- Indexing past a prefix indexes the rest. -/
theorem get?_append_len (pre l : List String) (n : Nat) :
    (pre ++ l).get? (pre.length + n) = l.get? n := by
  induction pre with
  | nil => simp
  | cons p ps ih => simpa [Nat.succ_add] using ih

/-- Claim C10: each contraction replacement rewrites only the FIRST
occurrence of its target token, and the possessive-s step removes or
replaces only the FIRST bare s; occurrences after the first are left in
place in both cases. -/
theorem c10_first_occurrence :
    (∀ (pre suf : List String) (old new : String), old ∉ pre →
      replace_token (pre ++ old :: suf) old new = pre ++ new :: suf) ∧
    (∀ (posTag : String → String) (pre suf : List String), "s" ∉ pre →
      s_step posTag (pre ++ "s" :: suf) =
        match suf with
        | [] => pre
        | next :: rest =>
          if posTag next ∈ ["DT", "JJ", "IN"] || startsW (posTag next) "V"
          then pre ++ "is" :: next :: rest
          else pre ++ next :: rest) := by
  constructor
  · intro pre
    induction pre with
    | nil => intro suf old new _; simp [replace_token]
    | cons p ps ih =>
      intro suf old new h
      have hne : ¬ (p = old) := fun hc => h (by simp [hc])
      have hx : old ∉ ps := fun hc => h (List.mem_cons_of_mem _ hc)
      simp [replace_token, hne, ih suf old new hx]
  · intro posTag pre suf h
    have hmem : "s" ∈ pre ++ "s" :: suf := by simp
    have hidx := pyIndexOf_append "s" pre suf h
    have hrem := pyRemove_append "s" pre suf h
    have hget : (pre ++ "s" :: suf).get? (pre.length + 1) = suf.get? 0 :=
      get?_append_len pre ("s" :: suf) 1
    cases suf with
    | nil =>
      simp only [s_step, if_pos hmem, hidx, hget, List.get?]
      simpa using hrem
    | cons next rest =>
      simp only [s_step, if_pos hmem, hidx, hget, List.get?]
      by_cases hc : posTag next ∈ ["DT", "JJ", "IN"] || startsW (posTag next) "V"
      · simp only [hc, if_true, hrem, pyInsert_append]
      · simp only [hc, if_false, hrem]
        simp at hc
        simp [hc]

/-- Witness for C10 at token lists with a duplicated target token. -/
theorem c10_witness :
    replace_token ["I", "m", "x", "m"] "m" "am" = ["I", "am", "x", "m"] ∧
    s_step (fun _ => "JJ") ["a", "s", "green", "s"] = ["a", "is", "green", "s"] :=
  ⟨(c10_first_occurrence.1 ["I"] ["x", "m"] "m" "am" (by decide)).trans (by decide),
    (c10_first_occurrence.2 (fun _ => "JJ") ["a"] ["green", "s"] (by decide)).trans
      (by decide)⟩

/-! ## Claim C1 -/

/-- Counterexample to claim C1: a terminal rule appended while parsing one
utterance is NOT present in the grammar text used for the next utterance.
Starting from the base grammar, the first utterance adds the rule for the
word apple to its instance grammar text, but the process state still holds
only the base text, so the second utterance starts again from the base and
its grammar text does not contain the rule. -/
theorem c1_counterexample :
    pyIn (mkRule "apple" "NN") (runUtterance "S -> NP VP\n" none [("apple", "NN")]).2 = true ∧
    (runUtterance "S -> NP VP\n" none [("apple", "NN")]).1 = some "S -> NP VP\n" ∧
    pyIn (mkRule "apple" "NN")
      (runUtterance "S -> NP VP\n"
        (runUtterance "S -> NP VP\n" none [("apple", "NN")]).1 []).2 = false :=
  ⟨by decide, by decide, by decide⟩

/-- Claim C1 as amended: the process-wide grammar attribute is set once
from the base file and never changes again while non-empty; each utterance
parses with a fresh per-utterance copy of that base text, to which its own
terminal rules are only ever APPENDED (nothing is removed).  Rules added
for one utterance do not carry over to later utterances. -/
theorem c1_amended_grammar :
    (∀ base : String, (parserInit base none).1 = some base) ∧
    (∀ base g : String, g ≠ "" → parserInit base (some g) = (some g, g)) ∧
    (∀ (cfg : String) (pos : List (String × String)), ∃ ext : List Char,
      (addRules cfg pos).data = cfg.data ++ ext) :=
  ⟨fun _ => rfl,
    fun base g h => by simp [parserInit, h],
    fun cfg pos => addRules_extends pos cfg⟩

/-- Witness for C1: a non-empty stored grammar is reused unchanged. -/
theorem c1_witness :
    parserInit "S -> NP VP\n" (some "S -> NP VP\n") = (some "S -> NP VP\n", "S -> NP VP\n") :=
  c1_amended_grammar.2.1 "S -> NP VP\n" "S -> NP VP\n" (by decide)

/-! ## Claim C5 -/

/-- Counterexample to claim C5: the transcript "Hey a Hey" starts with the
opener Hey, and stripping removes BOTH occurrences of Hey, including the
one in the middle of the remaining content, because the code uses a
replace-all once a leading match is found.  The claim that content other
than the leading occurrence is left unchanged is therefore false. -/
theorem c5_counterexample :
    startsW "Hey a Hey" "Hey" = true ∧
    stripOpeners "Hey a Hey" = " a " ∧
    pyIn "Hey" (stripOpeners "Hey a Hey") = false :=
  ⟨by decide, by decide, by decide⟩

/-- A no-trigger opener leaves the transcript unchanged. -/
theorem openerStep_no_trigger (t o : String) (h1 : startsW t o = false)
    (h2 : startsW t (pyLower o) = false) : openerStep t o = t := by
  simp [openerStep, h1, h2]

/-- A triggered opener (leading occurrence, and the lowercase variant not
leading afterwards) performs exactly the replace-all of the phrase. -/
theorem openerStep_trigger (t o : String) (h1 : startsW t o = true)
    (h2 : startsW (pyReplace t o "") (pyLower o) = false) :
    openerStep t o = pyReplace t o "" := by
  simp [openerStep, h1, h2]

/-- The opener loop is the identity on a transcript that starts with none
of the phrases, in either case. -/
theorem foldl_openerStep_no_trigger :
    ∀ (os : List String) (t : String),
      (∀ o ∈ os, startsW t o = false ∧ startsW t (pyLower o) = false) →
      os.foldl openerStep t = t := by
  intro os
  induction os with
  | nil => intro t _; rfl
  | cons o rest ih =>
    intro t h
    have ho := h o (List.mem_cons_self o rest)
    rw [List.foldl_cons, openerStep_no_trigger t o ho.1 ho.2]
    exact ih t (fun o2 hm => h o2 (List.mem_cons_of_mem o hm))

/-- A no-trigger introduction phrase leaves the transcript unchanged. -/
theorem introStep_no_trigger (tr i : String) (h1 : startsW tr i = false)
    (h2 : startsW tr (pyLower i) = false) : introStep tr i = Except.ok tr := by
  simp [introStep, h1, h2]

/-- The question-word guard blocks removal: even when the transcript starts
with the introduction phrase, it is returned unchanged when the word
immediately following the phrase is not a question word. -/
theorem introStep_guard_blocks (tr i fw : String) (rest : List String)
    (h1 : startsW tr i = true)
    (hw : pyWords (pyReplace tr i "") = fw :: rest) (hq : fw ∉ qwords)
    (h2 : startsW tr (pyLower i) = false) : introStep tr i = Except.ok tr := by
  simp [introStep, h1, hw, hq, h2]

/-- The question-word guard passes: when the transcript starts with the
introduction phrase and the word immediately following it is a question
word, the step performs exactly the replace-all of the phrase. -/
theorem introStep_guard_passes (tr i fw : String) (rest : List String)
    (h1 : startsW tr i = true)
    (hw : pyWords (pyReplace tr i "") = fw :: rest) (hq : fw ∈ qwords)
    (h2 : startsW (pyReplace tr i "") (pyLower i) = false) :
    introStep tr i = Except.ok (pyReplace tr i "") := by
  simp [introStep, h1, hw, hq, h2]

/-- The introduction loop is the identity on a transcript that starts with
none of the phrases, in either case. -/
theorem introFold_no_trigger :
    ∀ (il : List String) (t : String),
      (∀ i ∈ il, startsW t i = false ∧ startsW t (pyLower i) = false) →
      introFold il t = Except.ok t := by
  intro il
  induction il with
  | nil => intro t _; rfl
  | cons i rest ih =>
    intro t h
    have hi := h i (List.mem_cons_self i rest)
    simp only [introFold, introStep_no_trigger t i hi.1 hi.2]
    exact ih t (fun i2 hm => h i2 (List.mem_cons_of_mem i hm))

/-- A no-trigger segment of the introduction loop is skipped. -/
theorem introFold_skip :
    ∀ (il1 il2 : List String) (t : String),
      (∀ i ∈ il1, startsW t i = false ∧ startsW t (pyLower i) = false) →
      introFold (il1 ++ il2) t = introFold il2 t := by
  intro il1
  induction il1 with
  | nil => intro il2 t _; rfl
  | cons i rest ih =>
    intro il2 t h
    have hi := h i (List.mem_cons_self i rest)
    simp only [List.cons_append, introFold, introStep_no_trigger t i hi.1 hi.2]
    exact ih il2 t (fun i2 hm => h i2 (List.mem_cons_of_mem i hm))

/-- tryStrip succeeds exactly on the pattern itself in front. -/
theorem tryStrip_self : ∀ (pat rest : List Char), tryStrip pat (pat ++ rest) = some rest := by
  intro pat
  induction pat with
  | nil => intro rest; rfl
  | cons p ps ih => intro rest; simp [tryStrip, ih rest]

/-- tryStrip fails when the first characters differ. -/
theorem tryStrip_none (p : Char) (ps : List Char) (c : Char) (rest : List Char)
    (h : ¬ (c = p)) : tryStrip (p :: ps) (c :: rest) = none := by
  simp only [tryStrip]
  rw [if_neg (fun hpc => h hpc.symm)]

/-- The replace scan removes a match found at the current position. -/
theorem replaceFuel_cons_match (f : Nat) (p : Char) (ps rest : List Char) :
    replaceFuel (p :: ps) [] (f + 1) (p :: (ps ++ rest)) = replaceFuel (p :: ps) [] f rest := by
  have h : tryStrip (p :: ps) (p :: (ps ++ rest)) = some rest := by
    simpa using tryStrip_self (p :: ps) rest
  simp [replaceFuel, h]

/-- The replace scan keeps a character that cannot start a match. -/
theorem replaceFuel_cons_none (f : Nat) (p : Char) (ps : List Char) (c : Char)
    (rest : List Char) (h : ¬ (c = p)) :
    replaceFuel (p :: ps) [] (f + 1) (c :: rest) = c :: replaceFuel (p :: ps) [] f rest := by
  simp [replaceFuel, tryStrip_none p ps c rest h]

/-- The replace scan passes over a segment free of the head character of
the pattern, given enough fuel. -/
theorem replaceFuel_skip (p : Char) (ps : List Char) :
    ∀ (a : List Char) (f : Nat) (rest : List Char), p ∉ a → a.length + rest.length ≤ f →
      replaceFuel (p :: ps) [] f (a ++ rest) =
        a ++ replaceFuel (p :: ps) [] (f - a.length) rest := by
  intro a
  induction a with
  | nil => intro f rest _ _; simp
  | cons c a2 ih =>
    intro f rest hp hf
    have hc : ¬ (c = p) := fun hcc => hp (by simp [hcc])
    have hp2 : p ∉ a2 := fun hm => hp (List.mem_cons_of_mem _ hm)
    rcases f with _ | f2
    · exfalso
      simp only [List.length_cons] at hf
      omega
    · rw [List.cons_append, replaceFuel_cons_none f2 p ps c _ hc,
        ih f2 rest hp2 (by simp only [List.length_cons] at hf; omega)]
      simp [Nat.succ_sub_succ]

/-- The replace scan on an empty input returns the empty input. -/
theorem replaceFuel_nil_input (pat : List Char) (f : Nat) : replaceFuel pat [] f [] = [] := by
  cases f <;> rfl

/-- The replace scan leaves an occurrence-free input unchanged. -/
theorem replaceFuel_none_all (p : Char) (ps b : List Char) (f : Nat) (hp : p ∉ b)
    (hf : b.length ≤ f) : replaceFuel (p :: ps) [] f b = b := by
  have h := replaceFuel_skip p ps b f [] hp (by simpa using hf)
  simpa [replaceFuel_nil_input] using h

/-- Python str.replace with the empty replacement removes EVERY occurrence
of the phrase: a transcript that starts with the phrase and contains it a
second time (the head character of the phrase occurring nowhere else) loses
both occurrences, and such a transcript does trigger the startswith test. -/
theorem pyReplace_strips_all (p : Char) (ps a b : List Char) (ha : p ∉ a) (hb : p ∉ b) :
    startsW ⟨(p :: ps) ++ a ++ ((p :: ps) ++ b)⟩ ⟨p :: ps⟩ = true ∧
    pyReplace ⟨(p :: ps) ++ a ++ ((p :: ps) ++ b)⟩ ⟨p :: ps⟩ "" = ⟨a ++ b⟩ := by
  constructor
  · simp only [startsW, decide_eq_true_eq]
    exact ⟨a ++ ((p :: ps) ++ b), by simp⟩
  · show (⟨replaceFuel (p :: ps) []
      ((p :: ps) ++ a ++ ((p :: ps) ++ b)).length
      ((p :: ps) ++ a ++ ((p :: ps) ++ b))⟩ : String) = ⟨a ++ b⟩
    apply congrArg String.mk
    have hX : (p :: ps) ++ a ++ ((p :: ps) ++ b) =
        (p :: ps) ++ (a ++ ((p :: ps) ++ b)) := by
      rw [List.append_assoc]
    rw [hX]
    have hlen : ((p :: ps) ++ (a ++ ((p :: ps) ++ b))).length =
        (ps.length + (a.length + (ps.length + 1 + b.length))) + 1 := by
      simp
      omega
    rw [hlen, List.cons_append, replaceFuel_cons_match]
    rw [replaceFuel_skip p ps a _ _ ha (by simp; omega)]
    have h3 : ps.length + (a.length + (ps.length + 1 + b.length)) - a.length =
        (ps.length + (ps.length + b.length)) + 1 := by
      omega
    rw [h3, List.cons_append, replaceFuel_cons_match]
    rw [replaceFuel_none_all p ps b _ hb (by omega)]

/-- Claim C5 as amended: the first normalization step tries each opener and
introduction phrase in original case and lowercase, and removal is
triggered only by a LEADING occurrence: a transcript starting with none of
the phrases is unchanged, and an introduction phrase is removed only when
the word immediately following it is a question word (otherwise the
transcript is returned unchanged even though the phrase leads it); but once
a phrase is triggered, the code performs a replace-all that removes EVERY
occurrence of the phrase in the transcript, not only the leading one. -/
theorem c5_amended_stripping :
    (∀ t : String,
      (∀ o ∈ openers, startsW t o = false ∧ startsW t (pyLower o) = false) →
      stripOpeners t = t) ∧
    (∀ t : String,
      (∀ i ∈ introductions, startsW t i = false ∧ startsW t (pyLower i) = false) →
      introFold introductions t = Except.ok t) ∧
    (∀ (os1 os2 : List String) (o t : String),
      os1 ++ o :: os2 = openers →
      (∀ o1 ∈ os1, startsW t o1 = false ∧ startsW t (pyLower o1) = false) →
      startsW t o = true →
      startsW (pyReplace t o "") (pyLower o) = false →
      (∀ o2 ∈ os2, startsW (pyReplace t o "") o2 = false ∧
        startsW (pyReplace t o "") (pyLower o2) = false) →
      stripOpeners t = pyReplace t o "") ∧
    (∀ (il1 il2 : List String) (i t fw : String) (rest : List String),
      il1 ++ i :: il2 = introductions →
      (∀ i1 ∈ il1, startsW t i1 = false ∧ startsW t (pyLower i1) = false) →
      startsW t i = true →
      pyWords (pyReplace t i "") = fw :: rest →
      fw ∉ qwords →
      startsW t (pyLower i) = false →
      (∀ i2 ∈ il2, startsW t i2 = false ∧ startsW t (pyLower i2) = false) →
      introFold introductions t = Except.ok t) ∧
    (∀ (il1 il2 : List String) (i t fw : String) (rest : List String),
      il1 ++ i :: il2 = introductions →
      (∀ i1 ∈ il1, startsW t i1 = false ∧ startsW t (pyLower i1) = false) →
      startsW t i = true →
      pyWords (pyReplace t i "") = fw :: rest →
      fw ∈ qwords →
      startsW (pyReplace t i "") (pyLower i) = false →
      (∀ i2 ∈ il2, startsW (pyReplace t i "") i2 = false ∧
        startsW (pyReplace t i "") (pyLower i2) = false) →
      introFold introductions t = Except.ok (pyReplace t i "")) ∧
    (∀ (p : Char) (ps a b : List Char), p ∉ a → p ∉ b →
      startsW ⟨(p :: ps) ++ a ++ ((p :: ps) ++ b)⟩ ⟨p :: ps⟩ = true ∧
      pyReplace ⟨(p :: ps) ++ a ++ ((p :: ps) ++ b)⟩ ⟨p :: ps⟩ "" = ⟨a ++ b⟩) := by
  refine ⟨?_, ?_, ?_, ?_, ?_, pyReplace_strips_all⟩
  · intro t h
    exact foldl_openerStep_no_trigger openers t h
  · intro t h
    exact introFold_no_trigger introductions t h
  · intro os1 os2 o t hsplit h1 h2 h3 h4
    unfold stripOpeners
    rw [← hsplit, List.foldl_append, foldl_openerStep_no_trigger os1 t h1,
      List.foldl_cons, openerStep_trigger t o h2 h3,
      foldl_openerStep_no_trigger os2 _ h4]
  · intro il1 il2 i t fw rest hsplit h1 h2 hw hq h3 h4
    rw [← hsplit, introFold_skip il1 (i :: il2) t h1]
    simp only [introFold, introStep_guard_blocks t i fw rest h2 hw hq h3]
    exact introFold_no_trigger il2 t h4
  · intro il1 il2 i t fw rest hsplit h1 h2 hw hq h3 h4
    rw [← hsplit, introFold_skip il1 (i :: il2) t h1]
    simp only [introFold, introStep_guard_passes t i fw rest h2 hw hq h3]
    exact introFold_no_trigger il2 _ h4

/-- Witness for C5: an untouched transcript, a triggered opener whose two
occurrences are both removed, a triggered introduction followed by a
question word (removed), and a leading introduction followed by an
ordinary word (kept). -/
theorem c5_witness :
    stripOpeners "ok then" = "ok then" ∧
    stripOpeners "Hey a Hey" = pyReplace "Hey a Hey" "Hey" "" ∧
    introFold introductions "Can you tell me what time" =
      Except.ok (pyReplace "Can you tell me what time" "Can you tell me" "") ∧
    introFold introductions "Can you tell me something" =
      Except.ok "Can you tell me something" :=
  ⟨c5_amended_stripping.1 "ok then" (by decide),
    c5_amended_stripping.2.2.1 ["Leolani", "Sorry", "Excuse me"] ["Hello", "Hi"]
      "Hey" "Hey a Hey" (by decide) (by decide) (by decide) (by decide) (by decide),
    c5_amended_stripping.2.2.2.2.1 [] ["Do you know", "Please tell me", "Do you maybe know"]
      "Can you tell me" "Can you tell me what time" "what" ["time"]
      (by decide) (by decide) (by decide) (by decide) (by decide) (by decide) (by decide),
    c5_amended_stripping.2.2.2.1 [] ["Do you know", "Please tell me", "Do you maybe know"]
      "Can you tell me" "Can you tell me something" "something" []
      (by decide) (by decide) (by decide) (by decide) (by decide) (by decide) (by decide)⟩

/-! ## Claim C4 -/

/-- The head of the stable descending sort is the first element of maximal
confidence: the original list splits around it so that everything before it
is strictly smaller and everything after it is no larger. -/
theorem sortedDesc_first :
    ∀ l : List Hyp, l ≠ [] →
      ∃ (h : Hyp) (t l1 l2 : List Hyp),
        sortedDesc l = h :: t ∧ l = l1 ++ h :: l2 ∧
        (∀ x ∈ l1, x.confidence < h.confidence) ∧
        (∀ x ∈ l2, x.confidence ≤ h.confidence) := by
  intro l
  induction l with
  | nil => intro hc; exact absurd rfl hc
  | cons x xs ih =>
    intro _
    cases hxs : xs with
    | nil =>
      exact ⟨x, [], [], [], rfl, rfl, by simp, by simp⟩
    | cons y ys =>
      obtain ⟨g, t2, m1, m2, hsort, hdecomp, hm1, hm2⟩ := ih (by simp [hxs])
      rw [← hxs] at *
      by_cases hc : g.confidence ≤ x.confidence
      · refine ⟨x, g :: t2, [], xs, ?_, rfl, by simp, ?_⟩
        · simp only [sortedDesc, hsort, pyInsertDesc, if_pos hc]
        · intro z hz
          rw [hdecomp] at hz
          rcases List.mem_append.mp hz with hz1 | hz2
          · exact le_of_lt (lt_of_lt_of_le (hm1 z hz1) hc)
          · rcases List.mem_cons.mp hz2 with hz3 | hz4
            · rw [hz3]; exact hc
            · exact le_trans (hm2 z hz4) hc
      · have hlt : x.confidence < g.confidence := not_le.mp hc
        refine ⟨g, pyInsertDesc x t2, x :: m1, m2, ?_, ?_, ?_, hm2⟩
        · simp only [sortedDesc, hsort, pyInsertDesc, if_neg hc]
        · rw [hdecomp]; rfl
        · intro z hz
          rcases List.mem_cons.mp hz with hz1 | hz2
          · rw [hz1]; exact hlt
          · exact hm1 z hz2

/-- The name patching step keeps the number of hypotheses. -/
theorem patch_names_length (friends : List String) (hyps : List Hyp) :
    (_patch_names friends hyps).length = hyps.length := by
  simp only [_patch_names]
  split <;> simp

/-- Claim C4: on a non-empty hypothesis list, selection returns exactly one
hypothesis; it belongs to the name-patched, confidence-reweighted list (in
the same order as the input), its confidence is maximal there, and every
patched hypothesis before it has strictly smaller confidence, so the first
maximum in input order wins, as the stable descending sort guarantees. -/
theorem c4_choose_max (friends : List String) (hyps : List Hyp) (hne : hyps ≠ []) :
    ∃ (h : Hyp) (l1 l2 : List Hyp),
      _choose_hypothesis friends hyps = some h ∧
      _patch_names friends hyps = l1 ++ h :: l2 ∧
      (∀ x ∈ l1, x.confidence < h.confidence) ∧
      (∀ x ∈ l2, x.confidence ≤ h.confidence) := by
  have hpne : _patch_names friends hyps ≠ [] := by
    intro hc
    apply hne
    have := patch_names_length friends hyps
    rw [hc] at this
    exact List.length_eq_zero.mp this.symm
  obtain ⟨h, t, l1, l2, hsort, hdecomp, h1, h2⟩ := sortedDesc_first _ hpne
  exact ⟨h, l1, l2, by simp [_choose_hypothesis, hsort], hdecomp, h1, h2⟩

/-- Witness for C4 on a concrete two-hypothesis list. -/
theorem c4_witness :
    ∃ (h : Hyp) (l1 l2 : List Hyp),
      _choose_hypothesis [] [⟨"a", 1⟩, ⟨"b", 2⟩] = some h ∧
      _patch_names [] [⟨"a", 1⟩, ⟨"b", 2⟩] = l1 ++ h :: l2 ∧
      (∀ x ∈ l1, x.confidence < h.confidence) ∧
      (∀ x ∈ l2, x.confidence ≤ h.confidence) :=
  c4_choose_max [] [⟨"a", 1⟩, ⟨"b", 2⟩] (by decide)

/-! ## Claim C6 -/

/-- The entry the code records for one branch: the label of the branch, the
branch itself, and its leaf tokens joined with hyphens, the trailing hyphen
dropped and surrounding whitespace stripped. -/
def specEntry (b : PTree) : SR :=
  ⟨labelOf b, b, pyStrip ⟨(hyphenConcat (leavesOf b)).dropLast⟩⟩

/-- Leaves of a tree list are the flattened leaves of its members. -/
theorem leavesList_eq_flatten :
    ∀ cs : List PTree, leavesList cs = (cs.map leavesOf).flatten := by
  intro cs
  induction cs with
  | nil => rfl
  | cons t ts ih => simp [leavesList, ih]

/-- The effectful map succeeds pointwise. -/
theorem mapME_ok {α β : Type} (f : α → Except Unit β) (g : α → β) :
    ∀ l : List α, (∀ x ∈ l, f x = Except.ok (g x)) →
      mapME f l = Except.ok (l.map g) := by
  intro l
  induction l with
  | nil => intro _; rfl
  | cons x xs ih =>
    intro h
    have hx := h x (List.mem_cons_self x xs)
    have hxs := ih (fun y hy => h y (List.mem_cons_of_mem x hy))
    simp [mapME, hx, hxs]

/-- Calling .leaves() succeeds on a tree node. -/
theorem leavesE_ok (c : PTree) (h : isNodeB c = true) :
    leavesE c = Except.ok (leavesOf c) := by
  cases c with
  | leaf s => simp [isNodeB] at h
  | node l cs => rfl

/-- On a branch whose children are all tree nodes, the code records exactly
the specified entry. -/
theorem entryOfBranch_ok (b : PTree) (hb : isNodeB b = true)
    (hcs : ∀ n ∈ childrenOf b, isNodeB n = true) :
    entryOfBranch b = Except.ok (specEntry b) := by
  cases b with
  | leaf s => simp [isNodeB] at hb
  | node l cs =>
    have hmap : mapME leavesE cs = Except.ok (cs.map leavesOf) :=
      mapME_ok leavesE leavesOf cs
        (fun c hc => leavesE_ok c (hcs c (by simpa [childrenOf] using hc)))
    simp [entryOfBranch, labelE, rawOfBranch, pyIter, hmap, specEntry, labelOf,
      leavesOf, leavesList_eq_flatten]

/-- On a child of the first tree whose branches and their children are all
tree nodes, the branch loop records exactly the specified entries. -/
theorem branchGroup_ok (c : PTree) (hc : isNodeB c = true)
    (hb : ∀ b ∈ childrenOf c, isNodeB b = true)
    (hn : ∀ b ∈ childrenOf c, ∀ n ∈ childrenOf b, isNodeB n = true) :
    mapME entryOfBranch (pyIter c) = Except.ok ((childrenOf c).map specEntry) := by
  cases c with
  | leaf s => simp [isNodeB] at hc
  | node l cs =>
    have : pyIter (PTree.node l cs) = childrenOf (PTree.node l cs) := rfl
    rw [this]
    exact mapME_ok entryOfBranch specEntry (childrenOf (PTree.node l cs))
      (fun b hbm => entryOfBranch_ok b (hb b hbm) (hn b hbm))

/-- Counterexample to claim C6: the entries are not the immediate child
subtrees of the first parse tree.  For a first tree S with single child X,
which itself has single child NP, the single entry is the grandchild NP,
while the immediate children of the first tree are labelled X. -/
theorem c6_counterexample :
    extractTry
        [PTree.node "S" [PTree.node "X"
          [PTree.node "NP" [PTree.node "NNS" [PTree.leaf "dogs"]]]]] =
      Except.ok
        [⟨"NP", PTree.node "NP" [PTree.node "NNS" [PTree.leaf "dogs"]], "dogs"⟩] ∧
    (childrenOf (PTree.node "S" [PTree.node "X"
      [PTree.node "NP" [PTree.node "NNS" [PTree.leaf "dogs"]]]])).map labelOf = ["X"] ∧
    ("NP" : String) ≠ "X" := by
  refine ⟨?_, by decide, by decide⟩
  simp [extractTry, pyIter, mapME, entryOfBranch, labelE, rawOfBranch, leavesE,
    leavesOf, leavesList, hyphenConcat, pyStrip, labelOf]

/-- Claim C6 as amended: an empty forest yields an empty constituent map;
for a non-empty forest (with proper tree nodes down to the depth the code
touches), the entries are, for each immediate child of the FIRST tree taken
left to right, that child own immediate subtrees (the grandchildren of the
first tree), each recorded with its label, the subtree itself, and a raw
string equal to its leaf tokens joined by a hyphen with the trailing hyphen
dropped and surrounding whitespace stripped. -/
theorem c6_amended_constituents (forest : List PTree) :
    (forest = [] → extractTry forest = Except.ok []) ∧
    (∀ first rest, forest = first :: rest →
      isNodeB first = true →
      (∀ c ∈ childrenOf first, isNodeB c = true) →
      (∀ c ∈ childrenOf first, ∀ b ∈ childrenOf c, isNodeB b = true) →
      (∀ c ∈ childrenOf first, ∀ b ∈ childrenOf c, ∀ n ∈ childrenOf b, isNodeB n = true) →
      extractTry forest =
        Except.ok
          (((childrenOf first).map (fun c => (childrenOf c).map specEntry)).flatten)) := by
  constructor
  · intro h; rw [h]; rfl
  · intro first rest hf h0 h1 h2 h3
    subst hf
    cases first with
    | leaf s => simp [isNodeB] at h0
    | node l cs =>
      have hiter : pyIter (PTree.node l cs) = cs := rfl
      have hch : childrenOf (PTree.node l cs) = cs := rfl
      rw [hch] at h1 h2 h3 ⊢
      have hmap :
          mapME (fun t => mapME entryOfBranch (pyIter t)) cs =
            Except.ok (cs.map (fun c => (childrenOf c).map specEntry)) :=
        mapME_ok _ _ cs
          (fun c hcm => branchGroup_ok c (h1 c hcm) (h2 c hcm) (h3 c hcm))
      simp [extractTry, hiter, hmap]

/-- Witness for C6 on a concrete depth-four tree. -/
theorem c6_witness :
    extractTry
        [PTree.node "S" [PTree.node "A"
          [PTree.node "B" [PTree.node "C" [PTree.leaf "x"]]]]] =
      Except.ok
        (((childrenOf (PTree.node "S" [PTree.node "A"
            [PTree.node "B" [PTree.node "C" [PTree.leaf "x"]]]])).map
          (fun c => (childrenOf c).map specEntry)).flatten) :=
  (c6_amended_constituents _).2 _ _ rfl (by decide) (by decide) (by decide) (by decide)

/-! ## Claim C8 -/

/-- A non-empty character list has at least one line. -/
theorem linesOf_ne_nil (s : List Char) (hs : s ≠ []) : linesOf s ≠ [] := by
  cases s with
  | nil => exact absurd rfl hs
  | cons c rest =>
    by_cases hc : c = '\n'
    · simp [linesOf, hc]
    · cases hr : linesOf rest with
      | nil => simp [linesOf, hc, hr]
      | cons l ls => simp [linesOf, hc, hr]

/-- linesOf on a leading newline. -/
theorem linesOf_cons_nl (rest : List Char) : linesOf ('\n' :: rest) = [] :: linesOf rest := by
  simp [linesOf]

/-- linesOf on a leading ordinary character. -/
theorem linesOf_cons (c : Char) (rest : List Char) (hc : ¬ (c = '\n')) :
    linesOf (c :: rest) =
      match linesOf rest with
      | [] => [[c]]
      | l :: ls => (c :: l) :: ls := by
  simp [linesOf, hc]

/-- Lines split across an append at a newline-terminated left part. -/
theorem linesOf_append :
    ∀ (a b : List Char), a.getLast? = some '\n' →
      linesOf (a ++ b) = linesOf a ++ linesOf b := by
  intro a
  induction a with
  | nil => intro b h; simp at h
  | cons c rest ih =>
    intro b h
    rcases rest with _ | ⟨d, rest2⟩
    · have hc : c = '\n' := by simpa using h
      subst hc
      simp [linesOf]
    · have h2 : (d :: rest2).getLast? = some '\n' := by
        rwa [List.getLast?_cons_cons] at h
      by_cases hc : c = '\n'
      · subst hc
        have ih2 := ih b h2
        rw [List.cons_append] at ih2
        simp only [List.cons_append, linesOf_cons_nl, ih2]
      · have hne := linesOf_ne_nil (d :: rest2) (by simp)
        obtain ⟨l, ls, hls⟩ : ∃ l ls, linesOf (d :: rest2) = l :: ls := by
          rcases hq : linesOf (d :: rest2) with _ | ⟨l, ls⟩
          · exact absurd hq hne
          · exact ⟨l, ls, rfl⟩
        rw [List.cons_append, linesOf_cons c ((d :: rest2) ++ b) hc,
          linesOf_cons c (d :: rest2) hc, ih b h2, hls]
        simp

/-- A single newline-free line followed by a newline is one line. -/
theorem linesOf_line : ∀ l : List Char, '\n' ∉ l → linesOf (l ++ ['\n']) = [l] := by
  intro l
  induction l with
  | nil => intro _; simp [linesOf]
  | cons c rest ih =>
    intro h
    have hc : ¬ (c = '\n') := fun hcc => h (by simp [hcc])
    have hr : '\n' ∉ rest := fun hm => h (List.mem_cons_of_mem _ hm)
    simp [linesOf, hc, ih hr]

/-- Head-line decomposition of a newline-terminated character list. -/
theorem linesOf_head :
    ∀ a : List Char, a.getLast? = some '\n' →
      ∀ l ls, linesOf a = l :: ls →
        ∃ a2, a = l ++ '\n' :: a2 ∧ linesOf a2 = ls ∧
          (a2 = [] ∨ a2.getLast? = some '\n') := by
  intro a
  induction a with
  | nil => intro h; simp at h
  | cons c rest ih =>
    intro h l ls hls
    rcases rest with _ | ⟨d, rest2⟩
    · have hc : c = '\n' := by simpa using h
      subst hc
      rw [linesOf_cons_nl, linesOf] at hls
      obtain ⟨hl, hls3⟩ := List.cons.inj hls
      exact ⟨[], by simp [← hl], by simp [← hls3, linesOf], Or.inl rfl⟩
    · have h2 : (d :: rest2).getLast? = some '\n' := by
        rwa [List.getLast?_cons_cons] at h
      by_cases hc : c = '\n'
      · subst hc
        rw [linesOf_cons_nl] at hls
        obtain ⟨hl, hls3⟩ := List.cons.inj hls
        exact ⟨d :: rest2, by simp [← hl], by rw [hls3], Or.inr h2⟩
      · have hne := linesOf_ne_nil (d :: rest2) (by simp)
        obtain ⟨l0, ls0, hls0⟩ : ∃ l0 ls0, linesOf (d :: rest2) = l0 :: ls0 := by
          rcases hq : linesOf (d :: rest2) with _ | ⟨l0, ls0⟩
          · exact absurd hq hne
          · exact ⟨l0, ls0, rfl⟩
        rw [linesOf_cons c (d :: rest2) hc, hls0] at hls
        obtain ⟨hl, hls3⟩ := List.cons.inj hls
        obtain ⟨a2, hdec, hl2, hcond⟩ := ih h2 l0 ls0 hls0
        refine ⟨a2, ?_, by rw [← hls3, hl2], hcond⟩
        rw [← hl, hdec]
        rfl

/-- Every line of a newline-terminated text occurs in it followed by a
newline. -/
theorem mem_linesOf_infix (a : List Char) (ha : a.getLast? = some '\n')
    (l : List Char) (hl : l ∈ linesOf a) : l ++ ['\n'] <:+: a := by
  rcases hsc : linesOf a with _ | ⟨m, ms⟩
  · rw [hsc] at hl; cases hl
  · obtain ⟨a2, hdec, hl2, hcond⟩ := linesOf_head a ha m ms hsc
    rw [hsc] at hl
    rcases List.mem_cons.mp hl with h1 | h2
    · subst h1
      rw [hdec]
      exact ⟨[], a2, by simp⟩
    · rcases hcond with h3 | h4
      · rw [h3] at hl2
        rw [← hl2] at h2
        cases h2
      · have hrec := mem_linesOf_infix a2 h4 l (by rwa [hl2])
        have hsuf : a2 <:+: a := by
          rw [hdec]
          exact ⟨m ++ ['\n'], [], by simp⟩
        exact hrec.trans hsuf
termination_by a.length
decreasing_by
  have := congrArg List.length hdec
  simp at this
  omega

/-- The rule word never gains a newline. -/
theorem ruleWord_noNl (w : String) (hw : '\n' ∉ w.data) : '\n' ∉ (ruleWord w).data := by
  unfold ruleWord
  split
  · exact fun hm => hw ((List.dropLast_sublist w.data).subset hm)
  · exact hw

/-- Every constructed rule is one newline-free line followed by a newline. -/
theorem mkRule_shape (w t : String) (hw : '\n' ∉ w.data) (ht : '\n' ∉ t.data) :
    ∃ lc : List Char, (mkRule w t).data = lc ++ ['\n'] ∧ '\n' ∉ lc := by
  have hw2 := ruleWord_noNl w hw
  unfold mkRule
  split
  · refine ⟨(dropLastS t ++ "POS -> " ++ quoteS ++ ruleWord w ++ quoteS).data, rfl, ?_⟩
    intro hm
    simp only [strApp_data, dropLastS, quoteS, List.mem_append] at hm
    rcases hm with ((((hm1 | hm2) | hm3) | hm4) | hm5)
    · exact ht ((List.dropLast_sublist t.data).subset hm1)
    · exact absurd hm2 (by decide)
    · exact absurd hm3 (by decide)
    · exact hw2 hm4
    · exact absurd hm5 (by decide)
  · refine ⟨(t ++ " -> " ++ quoteS ++ ruleWord w ++ quoteS).data, rfl, ?_⟩
    intro hm
    simp only [strApp_data, quoteS, List.mem_append] at hm
    rcases hm with ((((hm1 | hm2) | hm3) | hm4) | hm5)
    · exact ht hm1
    · exact absurd hm2 (by decide)
    · exact absurd hm3 (by decide)
    · exact hw2 hm4
    · exact absurd hm5 (by decide)

/-- One step of the rule loop keeps the grammar text newline-terminated and
its lines duplicate-free. -/
theorem rule_line_step (cfg : String) (w t : String)
    (h1 : cfg.data = [] ∨ cfg.data.getLast? = some '\n')
    (h2 : (linesOf cfg.data).Nodup)
    (hw : '\n' ∉ w.data) (ht : '\n' ∉ t.data) :
    ((if pyIn (mkRule w t) cfg then cfg else cfg ++ mkRule w t).data = [] ∨
      (if pyIn (mkRule w t) cfg then cfg
        else cfg ++ mkRule w t).data.getLast? = some '\n') ∧
    (linesOf (if pyIn (mkRule w t) cfg then cfg else cfg ++ mkRule w t).data).Nodup := by
  by_cases hin : pyIn (mkRule w t) cfg = true
  · rw [if_pos hin]
    exact ⟨h1, h2⟩
  · rw [if_neg hin]
    obtain ⟨lc, hlc, hnl⟩ := mkRule_shape w t hw ht
    have hdata : (cfg ++ mkRule w t).data = cfg.data ++ (lc ++ ['\n']) := by
      rw [strApp_data, hlc]
    constructor
    · right
      rw [hdata, ← List.append_assoc, List.getLast?_concat]
    · rcases h1 with hnil | hl
      · rw [hdata, hnil, List.nil_append, linesOf_line lc hnl]
        exact List.nodup_singleton lc
      · rw [hdata, linesOf_append cfg.data (lc ++ ['\n']) hl, linesOf_line lc hnl]
        have hnot : lc ∉ linesOf cfg.data := by
          intro hmem
          apply hin
          have hinf := mem_linesOf_infix cfg.data hl lc hmem
          simp only [pyIn, decide_eq_true_eq, hlc]
          exact hinf
        refine List.nodup_append.mpr ⟨h2, List.nodup_singleton lc, ?_⟩
        intro x hx hx2
        rw [List.mem_singleton.mp hx2] at hx
        exact hnot hx

/-- Folding the whole rule loop keeps the lines duplicate-free and leaves
every processed rule present as a substring. -/
theorem addRules_nodup :
    ∀ (pos : List (String × String)) (cfg : String),
      (cfg.data = [] ∨ cfg.data.getLast? = some '\n') →
      (linesOf cfg.data).Nodup →
      (∀ wt ∈ pos, '\n' ∉ wt.1.data ∧ '\n' ∉ wt.2.data) →
      (linesOf (addRules cfg pos).data).Nodup ∧
      (∀ wt ∈ pos, pyIn (mkRule wt.1 wt.2) (addRules cfg pos) = true) := by
  intro pos
  induction pos with
  | nil =>
    intro cfg _ h2 _
    exact ⟨by simpa [addRules] using h2, by simp⟩
  | cons p rest ih =>
    intro cfg h1 h2 h3
    have hp := h3 p (List.mem_cons_self p rest)
    have hstep := rule_line_step cfg p.1 p.2 h1 h2 hp.1 hp.2
    have hrest : ∀ wt ∈ rest, '\n' ∉ wt.1.data ∧ '\n' ∉ wt.2.data :=
      fun wt hm => h3 wt (List.mem_cons_of_mem p hm)
    have hih := ih _ hstep.1 hstep.2 hrest
    have hunf : addRules cfg (p :: rest) =
        addRules (if pyIn (mkRule p.1 p.2) cfg then cfg else cfg ++ mkRule p.1 p.2) rest := rfl
    refine ⟨by rw [hunf]; exact hih.1, ?_⟩
    intro wt hm
    rcases List.mem_cons.mp hm with hh | hh
    · subst hh
      rw [hunf]
      apply pyIn_addRules
      by_cases hin : pyIn (mkRule wt.1 wt.2) cfg = true
      · rw [if_pos hin]; exact hin
      · rw [if_neg hin]
        simp only [pyIn, decide_eq_true_eq, strApp_data]
        exact ⟨cfg.data, [], by simp⟩
    · rw [hunf]
      exact hih.2 wt hh

/-- Claim C8: a constructed terminal rule is appended exactly when an
identical rule string is not already contained in the grammar text, and
consequently, starting from a newline-terminated grammar text with no
duplicate lines and processing words and tags free of newlines, the final
grammar text contains no duplicate lines (and every processed rule occurs
in it). -/
theorem c8_dedup_rules (cfg : String) (pos : List (String × String))
    (hbase : cfg.data = [] ∨ cfg.data.getLast? = some '\n')
    (hnd : (linesOf cfg.data).Nodup)
    (hwt : ∀ wt ∈ pos, '\n' ∉ wt.1.data ∧ '\n' ∉ wt.2.data) :
    (∀ (c : String) (w t2 : String),
      addRules c [(w, t2)] = if pyIn (mkRule w t2) c then c else c ++ mkRule w t2) ∧
    (linesOf (addRules cfg pos).data).Nodup ∧
    (∀ wt ∈ pos, pyIn (mkRule wt.1 wt.2) (addRules cfg pos) = true) :=
  ⟨fun _ _ _ => rfl, addRules_nodup pos cfg hbase hnd hwt⟩

/-- Witness for C8: processing the same (word, tag) pair twice still leaves
no duplicate lines in the grammar text. -/
theorem c8_witness :
    (linesOf (addRules "S -> NP VP\n" [("apple", "NN"), ("apple", "NN")]).data).Nodup ∧
    (∀ wt ∈ [("apple", "NN"), ("apple", "NN")],
      pyIn (mkRule wt.1 wt.2)
        (addRules "S -> NP VP\n" [("apple", "NN"), ("apple", "NN")]) = true) :=
  (c8_dedup_rules "S -> NP VP\n" [("apple", "NN"), ("apple", "NN")]
    (by decide) (by decide) (by decide)).2
